import Mathlib

/-!
# Verification of the tera-proxy-game dispatch core

A shallow embedding of `src/lib/connection/dispatch/index.js` (the `Dispatch`
class and its helpers), together with theorems settling the specification
claims about it.

Conventions used throughout:

* Byte buffers (`Buffer`) are modelled as `List Nat`; JavaScript reference
  identity between buffers is modelled explicitly where the source relies on
  it (`result !== data` in raw-hook handling, object identity in `deepClone`).
* JavaScript numbers that can be `undefined`/`NaN` are modelled as
  `Option Nat` (`none` for the non-number results).
* Callbacks are modelled as pure functions which return both their JS return
  value and the (possibly in-place mutated) values they were handed, making
  mutation explicit.
* The codec (`tera-data-parser`'s `protocol.parse` / `protocol.write`) is an
  abstract structure of total functions; parse calls are logged in a ghost
  field so cache behaviour is observable.
-/

namespace TeraDispatch

/-- A group of hooks sharing one `order` value: an element of the per-opcode
ordering array kept in `this.hooks` (see the data-layout comment at
`index.js` lines 111-119). -/
structure HookGroup (α : Type) where
  order : Int
  hooks : List α
  deriving Repr, DecidableEq

/-- Embedding of the generator `iterateHooks(globalHooks, codeHooks)`
(`index.js` lines 20-39): repeatedly emit the hooks of the front wildcard
group while it exists and its order is `<=` the front opcode group's order,
otherwise emit the front opcode group's hooks. -/
def iterateHooks {α : Type} : List (HookGroup α) → List (HookGroup α) → List α
  | [], [] => []
  | g :: gs, [] => g.hooks ++ iterateHooks gs []
  | [], c :: cs => c.hooks ++ iterateHooks [] cs
  | g :: gs, c :: cs =>
    if g.order ≤ c.order then g.hooks ++ iterateHooks gs (c :: cs)
    else c.hooks ++ iterateHooks (g :: gs) cs

/-- Modelled from the spec's merge rule, for comparison with `iterateHooks`:
"at each step emit all hooks of whichever side has the smaller group `order`;
on tie, emit WILDCARD's group first." -/
def specStableMerge {α : Type} : List (HookGroup α) → List (HookGroup α) → List α
  | [], [] => []
  | g :: gs, [] => g.hooks ++ specStableMerge gs []
  | [], c :: cs => c.hooks ++ specStableMerge [] cs
  | g :: gs, c :: cs =>
    if g.order < c.order then g.hooks ++ specStableMerge gs (c :: cs)
    else if c.order < g.order then c.hooks ++ specStableMerge (g :: gs) cs
    else g.hooks ++ specStableMerge gs (c :: cs)

/-- Embedding of hook insertion (`index.js` lines 253-260): `binarySearch` on
the ordering (sorted by ascending `order`) followed by `push` into the group
with equal order, or `splice` of a fresh group at the insertion point.  On the
sorted, duplicate-free orderings the source maintains, that is exactly this
recursive insertion. -/
def insertHook {α : Type} : List (HookGroup α) → Int → α → List (HookGroup α)
  | [], order, h => [⟨order, [h]⟩]
  | g :: rest, order, h =>
    if order < g.order then ⟨order, [h]⟩ :: g :: rest
    else if order = g.order then ⟨g.order, g.hooks ++ [h]⟩ :: rest
    else g :: insertHook rest order h

/-- A per-opcode ordering built by registering, in order, each `(order, hook)`
pair of `regs` (what repeated `Dispatch.hook` calls on one opcode produce). -/
def buildOrdering {α : Type} (regs : List (Int × α)) : List (HookGroup α) :=
  regs.foldl (fun acc r => insertHook acc r.1 r.2) []

/-- All hooks stored at a given `order` in an ordering (concatenated over
groups with that order; the source never creates two groups with one order). -/
def groupsHooks {α : Type} (ord : List (HookGroup α)) (o : Int) : List α :=
  ((ord.filter (fun g => g.order = o)).map HookGroup.hooks).flatten

/-- Orders of the groups of an ordering are strictly ascending. -/
def OrderSorted {α : Type} (ord : List (HookGroup α)) : Prop :=
  List.Chain' (fun a b => a.order < b.order) ord

theorem iterateHooks_eq_specStableMerge {α : Type} :
    ∀ (gs cs : List (HookGroup α)), iterateHooks gs cs = specStableMerge gs cs := by
  intro gs
  induction gs with
  | nil =>
    intro cs
    induction cs with
    | nil => simp [iterateHooks, specStableMerge]
    | cons c cs ih => simp [iterateHooks, specStableMerge, ih]
  | cons g gs ihg =>
    intro cs
    induction cs with
    | nil => simp [iterateHooks, specStableMerge, ihg]
    | cons c cs ihc =>
      by_cases h1 : g.order < c.order
      · simp [iterateHooks, specStableMerge, le_of_lt h1, h1, ihg]
      · by_cases h2 : c.order < g.order
        · have hle : ¬ g.order ≤ c.order := not_le.mpr h2
          simp [iterateHooks, specStableMerge, hle, h1, h2, ihc]
        · have heq : g.order ≤ c.order := le_of_not_lt h2
          simp [iterateHooks, specStableMerge, heq, h1, h2, ihg]

theorem insertHook_head {α : Type} (ord : List (HookGroup α)) (o : Int) (h : α)
    (g' : HookGroup α) (hg : (insertHook ord o h).head? = some g') :
    g'.order = o ∨ ∃ g0, ord.head? = some g0 ∧ g'.order = g0.order := by
  cases ord with
  | nil =>
    simp only [insertHook, List.head?_cons, Option.some.injEq] at hg
    left; rw [← hg]
  | cons g rest =>
    simp only [insertHook] at hg
    by_cases h1 : o < g.order
    · simp only [if_pos h1, List.head?_cons, Option.some.injEq] at hg
      left; rw [← hg]
    · by_cases h2 : o = g.order
      · simp only [if_neg h1, if_pos h2, List.head?_cons, Option.some.injEq] at hg
        right; exact ⟨g, rfl, by rw [← hg]⟩
      · simp only [if_neg h1, if_neg h2, List.head?_cons, Option.some.injEq] at hg
        right; exact ⟨g, rfl, by rw [← hg]⟩

theorem insertHook_sorted {α : Type} (ord : List (HookGroup α)) (o : Int) (h : α)
    (hs : OrderSorted ord) : OrderSorted (insertHook ord o h) := by
  induction ord with
  | nil => simp [insertHook, OrderSorted]
  | cons g rest ih =>
    rw [OrderSorted, List.chain'_cons'] at hs
    obtain ⟨hhead, htail⟩ := hs
    simp only [insertHook]
    by_cases h1 : o < g.order
    · simp only [if_pos h1]
      rw [OrderSorted, List.chain'_cons']
      exact ⟨fun b hb => by simp at hb; subst hb; exact h1,
        List.chain'_cons'.mpr ⟨hhead, htail⟩⟩
    · by_cases h2 : o = g.order
      · simp only [if_neg h1, if_pos h2]
        rw [OrderSorted, List.chain'_cons']
        exact ⟨hhead, htail⟩
      · simp only [if_neg h1, if_neg h2]
        rw [OrderSorted, List.chain'_cons']
        refine ⟨?_, ih htail⟩
        intro b hb
        rcases insertHook_head rest o h b hb with hob | ⟨g0, hg0, hbo⟩
        · show g.order < b.order
          omega
        · have := hhead g0 hg0
          show g.order < b.order
          omega

theorem sorted_head_lt {α : Type} (g : HookGroup α) (rest : List (HookGroup α))
    (hs : OrderSorted (g :: rest)) : ∀ g' ∈ rest, g.order < g'.order := by
  induction rest generalizing g with
  | nil => intro g' hg'; simp at hg'
  | cons g2 rest2 ih =>
    rw [OrderSorted, List.chain'_cons] at hs
    obtain ⟨h12, htail⟩ := hs
    intro g' hg'
    rcases List.mem_cons.mp hg' with rfl | hg'
    · exact h12
    · have := ih g2 htail g' hg'
      omega

theorem groupsHooks_nil {α : Type} (o : Int) : groupsHooks ([] : List (HookGroup α)) o = [] := by
  simp [groupsHooks]

theorem groupsHooks_cons {α : Type} (g : HookGroup α) (rest : List (HookGroup α)) (o : Int) :
    groupsHooks (g :: rest) o =
      (if g.order = o then g.hooks else []) ++ groupsHooks rest o := by
  simp only [groupsHooks, List.filter_cons]
  by_cases he : g.order = o
  · simp [he]
  · simp [he]

theorem groupsHooks_eq_nil {α : Type} (ord : List (HookGroup α)) (o : Int)
    (hno : ∀ g ∈ ord, g.order ≠ o) : groupsHooks ord o = [] := by
  induction ord with
  | nil => exact groupsHooks_nil o
  | cons g rest ih =>
    rw [groupsHooks_cons]
    have h1 : g.order ≠ o := hno g (by simp)
    simp only [h1, if_neg, not_false_iff, List.nil_append]
    exact ih (fun g' hg' => hno g' (by simp [hg']))

theorem insertHook_groupsHooks {α : Type} (ord : List (HookGroup α)) (o : Int) (h : α)
    (hs : OrderSorted ord) (o' : Int) :
    groupsHooks (insertHook ord o h) o' =
      groupsHooks ord o' ++ (if o' = o then [h] else []) := by
  induction ord with
  | nil =>
    by_cases he : o' = o
    · subst he
      simp [insertHook, groupsHooks_cons, groupsHooks_nil]
    · have : ¬ (o = o') := fun hc => he hc.symm
      simp [insertHook, groupsHooks_cons, groupsHooks_nil, this, he]
  | cons g rest ih =>
    have htail : OrderSorted rest := (List.chain'_cons'.mp hs).2
    simp only [insertHook]
    by_cases h1 : o < g.order
    · -- a fresh group is spliced at the very front
      have hnone : groupsHooks (g :: rest) o = [] := by
        apply groupsHooks_eq_nil
        intro g' hg'
        rcases List.mem_cons.mp hg' with rfl | hg'
        · omega
        · have := sorted_head_lt g rest hs g' hg'
          omega
      simp only [if_pos h1]
      rw [groupsHooks_cons]
      by_cases he : o' = o
      · subst he
        simp only [if_pos rfl]
        rw [hnone]
        simp
      · have : ¬ (o = o') := fun hc => he hc.symm
        simp [this, he]
    · by_cases h2 : o = g.order
      · subst h2
        rw [if_neg (lt_irrefl g.order), if_pos rfl]
        rw [groupsHooks_cons, groupsHooks_cons]
        by_cases he : o' = g.order
        · have hnone : groupsHooks rest g.order = [] := by
            apply groupsHooks_eq_nil
            intro g' hg'
            have := sorted_head_lt g rest hs g' hg'
            omega
          rw [he, hnone]
          simp
        · have hne : ¬ (g.order = o') := fun hc => he hc.symm
          simp [hne, he]
      · simp only [if_neg h1, if_neg h2]
        rw [groupsHooks_cons, groupsHooks_cons, ih htail, List.append_assoc]

theorem buildOrdering_sorted {α : Type} (regs : List (Int × α)) :
    OrderSorted (buildOrdering regs) := by
  suffices h : ∀ acc, OrderSorted acc →
      OrderSorted (regs.foldl (fun acc r => insertHook acc r.1 r.2) acc) by
    exact h [] (by simp [OrderSorted])
  induction regs with
  | nil => intro acc hacc; simpa using hacc
  | cons r rest ih =>
    intro acc hacc
    exact ih _ (insertHook_sorted _ _ _ hacc)

theorem buildOrdering_groupsHooks {α : Type} (regs : List (Int × α)) (o : Int) :
    groupsHooks (buildOrdering regs) o =
      (regs.filter (fun r => r.1 = o)).map Prod.snd := by
  suffices h : ∀ acc, OrderSorted acc →
      groupsHooks (regs.foldl (fun acc r => insertHook acc r.1 r.2) acc) o =
        groupsHooks acc o ++ (regs.filter (fun r => r.1 = o)).map Prod.snd by
    have := h [] (by simp [OrderSorted])
    simpa [buildOrdering, groupsHooks_nil] using this
  induction regs with
  | nil => intro acc hacc; simp
  | cons r rest ih =>
    intro acc hacc
    simp only [List.foldl_cons, List.filter_cons]
    rw [ih _ (insertHook_sorted _ _ _ hacc)]
    rw [insertHook_groupsHooks _ _ _ hacc]
    by_cases he : o = r.1
    · have he' : r.1 = o := he.symm
      rw [if_pos he]
      simp [he']
    · have he' : ¬ (r.1 = o) := fun hc => he hc.symm
      rw [if_neg he]
      simp [he']

/-! ## The handler pipeline: `Dispatch.handle` (`index.js` lines 385-539)

The `C_CHECK_VERSION` version-snoop preamble (lines 388-415) only calls
`setProtocolVersion` and is not involved in any claim; the embedding starts
at the snapshot `const copy = Buffer.from(data)` (line 417), taking the
protocol version as a parameter (the source reads it once, line 423). -/

/-- Byte buffers (`Buffer`) by content; reference identity is modelled at the
points where the source tests it. -/
abbrev Bytes := List Nat

/-- A structured definition version: a number, or the string `*`
(`definitionVersion` of a non-`raw` hook, the key of `eventCache`). -/
inductive SVer
  | star
  | num (v : Nat)
  deriving Repr, DecidableEq

/-- A hook's filter (`index.js` lines 235-240): each field either `null`
(match anything) or a required boolean. Source defaults: `fake: false`,
`incoming: null`, `modified: null`, `silenced: false`. -/
structure Filter where
  fake : Option Bool := some false
  incoming : Option Bool := none
  modified : Option Bool := none
  silenced : Option Bool := some false
  deriving Repr, DecidableEq

/-- The filter test of `index.js` lines 453-457: a hook is skipped unless
every non-`null` filter field equals the corresponding frame flag. -/
def filterPass (f : Filter) (fake incoming modified silenced : Bool) : Bool :=
  (match f.fake with | none => true | some b => b == fake) &&
  (match f.incoming with | none => true | some b => b == incoming) &&
  (match f.modified with | none => true | some b => b == modified) &&
  (match f.silenced with | none => true | some b => b == silenced)

/-- What a `raw` hook's callback returned (line 463). `buf` is a byte buffer
that is a different object from the current `data` (`result !== data`);
`same` is the very `data` buffer handed to the callback. -/
inductive RawRet
  | buf (b : Bytes)
  | same
  | bool (b : Bool)
  | other
  deriving Repr, DecidableEq

/-- What a structured hook's callback returned (line 493): strictly `true`,
strictly `false`, or anything else. -/
inductive ObjRet
  | tru
  | fls
  | other
  deriving Repr, DecidableEq

/-- A hook's dispatch-relevant payload: `raw` hooks get
`callback(code, data, incoming, fake)` and may mutate `data` in place (the
callback returns the possibly-mutated buffer next to its JS return value);
structured hooks get `callback(event, fake)` and may mutate the event (the
callback returns the possibly-mutated event next to its JS return value). -/
inductive HookKind (Ev : Type)
  | raw (cb : Nat → Bytes → Bool → Bool → Bytes × RawRet)
  | structured (v : SVer) (cb : Ev → Bool → Ev × ObjRet)

/-- A registered hook as seen by `handle`: its filter and its kind. -/
structure Hook (Ev : Type) where
  filter : Filter
  kind : HookKind Ev

/-- The codec interface used by `handle`: `protocol.parse(protocolVersion,
code, defVersion, data)` and `protocol.write(protocolVersion, code,
defVersion, event)`, as total functions. -/
structure Codec (Ev : Type) where
  parse : Nat → Nat → SVer → Bytes → Ev
  write : Nat → Nat → SVer → Ev → Bytes

/-- Ghost record of one callback invocation: the hook's filter, the four
frame flags at the moment the hook ran, and — for structured hooks — whether
the callback received the cached event object itself (`byRef = some true`) or
a deep clone (`byRef = some false`); `none` for raw hooks. -/
structure InvEntry where
  filter : Filter
  fake : Bool
  incoming : Bool
  modified : Bool
  silenced : Bool
  byRef : Option Bool
  deriving Repr, DecidableEq

/-- The mutable state of one `handle` invocation (`index.js` lines 423-449),
plus ghost fields (`parseLog`, `invocations`) recording observable events. -/
structure HState (Ev : Type) where
  data : Bytes
  modified : Bool := false
  silenced : Bool := false
  cache : List (SVer × Ev) := []
  iter : Nat := 0
  parseLog : List SVer := []
  invocations : List InvEntry := []

/-- Lookup in the per-invocation `eventCache` (keyed by definition version). -/
def cacheGet {Ev : Type} (c : List (SVer × Ev)) (v : SVer) : Option Ev :=
  (c.find? (fun p => p.1 == v)).map Prod.snd

/-- In-place update of the cached event for version `v` (what a mutation of a
by-reference event would make visible through the cache). -/
def cacheSet {Ev : Type} : List (SVer × Ev) → SVer → Ev → List (SVer × Ev)
  | [], _, _ => []
  | p :: rest, v, e => (if p.1 == v then (p.1, e) else p) :: cacheSet rest v e

/-- Models line 449: `hooks = (globalHooks ? globalHooks.size : 0) +
(codeHooks ? codeHooks.size : 0)`.  `globalHooks` and `codeHooks` are JS
`Array`s, which have no `size` property (`length` is the array-length
property), so each ternary yields `undefined` when its array is present and
`0` when it is absent, and the sum is `NaN` unless both are absent.  `none`
stands for the non-number results `undefined`/`NaN`. -/
def jsSizeTerm {α : Type} : Option (List α) → Option Nat
  | some _ => none
  | none => some 0

/-- The sum of the two ternaries of line 449 under JS arithmetic:
`undefined + n` and `NaN + n` are `NaN`. -/
def hooksCount {α : Type} (gh ch : Option (List α)) : Option Nat :=
  match jsSizeTerm gh, jsSizeTerm ch with
  | some a, some b => some (a + b)
  | _, _ => none

/-- Models line 459: `const lastHook = ++iter === hooks`.  Strict equality of
a number against `NaN` (or any non-number) is `false`. -/
def isLastHook (iter : Nat) (cnt : Option Nat) : Bool :=
  match cnt with
  | some n => iter == n
  | none => false

/-- Line 488, `event = eventCache[defVersion] || (eventCache[defVersion] =
protocol.parse(protocolVersion, code, defVersion, data))`: the event handed
on (before any cloning), a cache hit or a fresh parse. -/
def parsedEvent {Ev : Type} (codec : Codec Ev) (proto code : Nat) (st : HState Ev)
    (v : SVer) : Ev :=
  match cacheGet st.cache v with
  | some e => e
  | none => codec.parse proto code v st.data

/-- The `eventCache` right after line 488: unchanged on a hit, extended with
the fresh parse on a miss. -/
def cacheAfterLookup {Ev : Type} (codec : Codec Ev) (proto code : Nat) (st : HState Ev)
    (v : SVer) : List (SVer × Ev) :=
  match cacheGet st.cache v with
  | some _ => st.cache
  | none => st.cache ++ [(v, codec.parse proto code v st.data)]

/-- Ghost parse log right after line 488: a parse call is recorded exactly on
a cache miss. -/
def parseLogAfterLookup {Ev : Type} (st : HState Ev) (v : SVer) : List SVer :=
  match cacheGet st.cache v with
  | some _ => st.parseLog
  | none => st.parseLog ++ [v]

/-- One iteration of the dispatch loop (`index.js` lines 451-535) for a
single hook, at opcode `code`, with `copy` the snapshot of the original bytes
and `cnt` the (mis)computed hook count of line 449.  Callback, parse and
re-write exceptions are not modelled (the codec and callbacks are total). -/
def runHook {Ev : Type} (codec : Codec Ev) (proto code : Nat) (incoming fake : Bool)
    (copy : Bytes) (cnt : Option Nat) (st : HState Ev) (h : Hook Ev) : HState Ev :=
  if filterPass h.filter fake incoming st.modified st.silenced then
    let iter := st.iter + 1
    let last := isLastHook iter cnt
    match h.kind with
    | .raw cb =>
      let r := cb code st.data incoming fake
      let entry : InvEntry :=
        ⟨h.filter, fake, incoming, st.modified, st.silenced, none⟩
      match r.2 with
      | .buf b =>
        { st with
          data := b
          modified := st.modified || (b.length != r.1.length) || (b != r.1)
          iter := iter
          invocations := st.invocations ++ [entry] }
      | .same =>
        { st with
          data := r.1
          modified := st.modified || (r.1 != copy)
          iter := iter
          invocations := st.invocations ++ [entry] }
      | .bool bb =>
        { st with
          data := r.1
          modified := st.modified || (r.1 != copy)
          silenced := !bb
          iter := iter
          invocations := st.invocations ++ [entry] }
      | .other =>
        { st with
          data := r.1
          modified := st.modified || (r.1 != copy)
          iter := iter
          invocations := st.invocations ++ [entry] }
    | .structured v cb =>
      let parsed := parsedEvent codec proto code st v
      let cache1 := cacheAfterLookup codec proto code st v
      let log1 := parseLogAfterLookup st v
      -- line 490: the callback receives the cached object itself when
      -- lastHook, else a deep clone; mutation of a by-reference event is
      -- visible through the cache, mutation of a clone is not
      let r := cb parsed fake
      let cache2 := if last then cacheSet cache1 v r.1 else cache1
      let entry : InvEntry :=
        ⟨h.filter, fake, incoming, st.modified, st.silenced, some last⟩
      match r.2 with
      | .tru =>
        { st with
          data := codec.write proto code v r.1
          modified := true
          silenced := false
          cache := []
          iter := iter
          parseLog := log1
          invocations := st.invocations ++ [entry] }
      | .fls =>
        { st with
          silenced := true
          cache := cache2
          iter := iter
          parseLog := log1
          invocations := st.invocations ++ [entry] }
      | .other =>
        { st with
          cache := cache2
          iter := iter
          parseLog := log1
          invocations := st.invocations ++ [entry] }
  else st

/-- The dispatch loop of `handle` over the merged hook sequence, starting
from the freshly initialized state of lines 423-449 (`modified = false`,
`silenced = false`, empty `eventCache`). -/
def handleRun {Ev : Type} (codec : Codec Ev) (proto code : Nat)
    (gh ch : Option (List (HookGroup (Hook Ev)))) (data : Bytes)
    (incoming fake : Bool) : HState Ev :=
  (iterateHooks (gh.getD []) (ch.getD [])).foldl
    (runHook codec proto code incoming fake data (hooksCount gh ch))
    { data := data }

/-- Models `data.readUInt16LE(2)` (line 386) on a complete frame. -/
def readUInt16LE (b : Bytes) (off : Nat) : Nat :=
  b.getD off 0 % 256 + b.getD (off + 1) 0 % 256 * 256

/-- First-match association lookup (JS `Map.prototype.get`). -/
def mapGet {κ β : Type} [BEq κ] (m : List (κ × β)) (k : κ) : Option β :=
  (m.find? (fun p => p.1 == k)).map Prod.snd

/-- A registry key: the WILDCARD sentinel `'*'` or a numeric opcode. -/
inductive HCode
  | star
  | num (n : Nat)
  deriving Repr, DecidableEq

/-- Embedding of `Dispatch.handle(data, incoming, fake)` after the
version-snoop preamble: read the opcode, look up the WILDCARD and opcode
hook orderings, return the bytes unchanged if both are absent (line 421),
otherwise run the dispatch loop and return `none` (SUPPRESS, the source's
`false`) when silenced, else the current bytes (lines 537-538). -/
def handle {Ev : Type} (codec : Codec Ev) (proto : Nat)
    (registry : List (HCode × List (HookGroup (Hook Ev)))) (data : Bytes)
    (incoming fake : Bool) : Option Bytes :=
  let code := readUInt16LE data 2
  let gh := mapGet registry .star
  let ch := mapGet registry (.num code)
  match gh, ch with
  | none, none => some data
  | _, _ =>
    let fin := handleRun codec proto code gh ch data incoming fake
    if fin.silenced then none else some fin.data

/-- A concrete codec over `Nat` events, for witnesses and counterexamples. -/
def codec0 : Codec Nat :=
  ⟨fun _ _ _ _ => 0, fun _ _ _ _ => [9]⟩

/-- A filter with every field `null`: matches every frame. -/
def filter0 : Filter :=
  ⟨none, none, none, none⟩

/-- C3: in a `handle` invocation, a structured hook's boolean-`true` result
sets `modified`, clears `silenced`, re-serializes the (possibly mutated)
event into the new current bytes and clears the event cache; a boolean
`false` result sets `silenced`; any other result changes neither `modified`,
`silenced`, the bytes, nor the cache (beyond the unconditional
populate-on-miss of line 488). -/
theorem C3_structured_result_dispatch {Ev : Type} (codec : Codec Ev) (proto code : Nat)
    (incoming fake : Bool) (copy : Bytes) (cnt : Option Nat) (st : HState Ev)
    (f : Filter) (v : SVer) (cb : Ev → Bool → Ev × ObjRet)
    (hf : filterPass f fake incoming st.modified st.silenced = true)
    (hlast : isLastHook (st.iter + 1) cnt = false) :
    ((cb (parsedEvent codec proto code st v) fake).2 = ObjRet.tru →
      (runHook codec proto code incoming fake copy cnt st ⟨f, .structured v cb⟩).modified = true ∧
      (runHook codec proto code incoming fake copy cnt st ⟨f, .structured v cb⟩).silenced = false ∧
      (runHook codec proto code incoming fake copy cnt st ⟨f, .structured v cb⟩).data =
        codec.write proto code v (cb (parsedEvent codec proto code st v) fake).1 ∧
      (runHook codec proto code incoming fake copy cnt st ⟨f, .structured v cb⟩).cache = []) ∧
    ((cb (parsedEvent codec proto code st v) fake).2 = ObjRet.fls →
      (runHook codec proto code incoming fake copy cnt st ⟨f, .structured v cb⟩).silenced = true ∧
      (runHook codec proto code incoming fake copy cnt st ⟨f, .structured v cb⟩).modified = st.modified ∧
      (runHook codec proto code incoming fake copy cnt st ⟨f, .structured v cb⟩).data = st.data ∧
      (runHook codec proto code incoming fake copy cnt st ⟨f, .structured v cb⟩).cache =
        cacheAfterLookup codec proto code st v) ∧
    ((cb (parsedEvent codec proto code st v) fake).2 = ObjRet.other →
      (runHook codec proto code incoming fake copy cnt st ⟨f, .structured v cb⟩).modified = st.modified ∧
      (runHook codec proto code incoming fake copy cnt st ⟨f, .structured v cb⟩).silenced = st.silenced ∧
      (runHook codec proto code incoming fake copy cnt st ⟨f, .structured v cb⟩).data = st.data ∧
      (runHook codec proto code incoming fake copy cnt st ⟨f, .structured v cb⟩).cache =
        cacheAfterLookup codec proto code st v) := by
  refine ⟨fun hr => ?_, fun hr => ?_, fun hr => ?_⟩ <;>
    simp [runHook, hf, hlast, hr]

/-- Witness for C3 at a concrete input: a structured hook returning `false`
silences the frame. -/
theorem C3_witness :
    (runHook codec0 0 0 true false [] none { data := [1] }
      ⟨filter0, .structured (.num 1) (fun e _ => (e, ObjRet.fls))⟩).silenced = true :=
  ((C3_structured_result_dispatch codec0 0 0 true false [] none { data := [1] }
    filter0 (.num 1) (fun e _ => (e, ObjRet.fls)) (by decide) (by decide)).2.1 rfl).1

/-- C5: in a `handle` invocation, a raw hook returning a byte buffer distinct
from the current bytes makes it current and ORs into `modified` whether it
differs in length or content from the (possibly in-place mutated) current
bytes; any other result ORs into `modified` whether the current bytes differ
from the original snapshot, and a boolean result `b` sets `silenced = !b`. -/
theorem C5_raw_result_dispatch {Ev : Type} (codec : Codec Ev) (proto code : Nat)
    (incoming fake : Bool) (copy : Bytes) (cnt : Option Nat) (st : HState Ev)
    (f : Filter) (cb : Nat → Bytes → Bool → Bool → Bytes × RawRet)
    (hf : filterPass f fake incoming st.modified st.silenced = true) :
    (∀ b, (cb code st.data incoming fake).2 = RawRet.buf b →
      (runHook codec proto code incoming fake copy cnt st ⟨f, .raw cb⟩).data = b ∧
      (runHook codec proto code incoming fake copy cnt st ⟨f, .raw cb⟩).modified =
        (st.modified || (b.length != (cb code st.data incoming fake).1.length)
          || (b != (cb code st.data incoming fake).1)) ∧
      (runHook codec proto code incoming fake copy cnt st ⟨f, .raw cb⟩).silenced = st.silenced) ∧
    ((cb code st.data incoming fake).2 = RawRet.same →
      (runHook codec proto code incoming fake copy cnt st ⟨f, .raw cb⟩).data =
        (cb code st.data incoming fake).1 ∧
      (runHook codec proto code incoming fake copy cnt st ⟨f, .raw cb⟩).modified =
        (st.modified || ((cb code st.data incoming fake).1 != copy)) ∧
      (runHook codec proto code incoming fake copy cnt st ⟨f, .raw cb⟩).silenced = st.silenced) ∧
    (∀ bb, (cb code st.data incoming fake).2 = RawRet.bool bb →
      (runHook codec proto code incoming fake copy cnt st ⟨f, .raw cb⟩).data =
        (cb code st.data incoming fake).1 ∧
      (runHook codec proto code incoming fake copy cnt st ⟨f, .raw cb⟩).modified =
        (st.modified || ((cb code st.data incoming fake).1 != copy)) ∧
      (runHook codec proto code incoming fake copy cnt st ⟨f, .raw cb⟩).silenced = !bb) ∧
    ((cb code st.data incoming fake).2 = RawRet.other →
      (runHook codec proto code incoming fake copy cnt st ⟨f, .raw cb⟩).data =
        (cb code st.data incoming fake).1 ∧
      (runHook codec proto code incoming fake copy cnt st ⟨f, .raw cb⟩).modified =
        (st.modified || ((cb code st.data incoming fake).1 != copy)) ∧
      (runHook codec proto code incoming fake copy cnt st ⟨f, .raw cb⟩).silenced = st.silenced) := by
  refine ⟨fun b hr => ?_, fun hr => ?_, fun bb hr => ?_, fun hr => ?_⟩ <;>
    simp [runHook, hf, hr]

/-- Witness for C5 at a concrete input: a raw hook returning boolean `false`
silences the frame. -/
theorem C5_witness :
    (runHook codec0 0 0 true false [] none { data := [1] }
      ⟨filter0, .raw (fun _ d _ _ => (d, RawRet.bool false))⟩).silenced = true :=
  ((C5_raw_result_dispatch codec0 0 0 true false [] none { data := [1] }
    filter0 (fun _ d _ _ => (d, RawRet.bool false)) (by decide)).2.2.1 false rfl).2.2

/-- C6: `handle` returns SUPPRESS (`none`, the source's `false`) exactly when
`silenced` is true after the last hook has run, otherwise the current bytes;
with neither WILDCARD nor opcode hooks registered it returns the input bytes
unchanged. -/
theorem handle_no_hooks {Ev : Type} (codec : Codec Ev) (proto : Nat)
    (registry : List (HCode × List (HookGroup (Hook Ev)))) (data : Bytes)
    (incoming fake : Bool)
    (hg : mapGet registry HCode.star = none)
    (hc : mapGet registry (HCode.num (readUInt16LE data 2)) = none) :
    handle codec proto registry data incoming fake = some data := by
  simp only [handle, hg, hc]

theorem handle_eq_run {Ev : Type} (codec : Codec Ev) (proto : Nat)
    (registry : List (HCode × List (HookGroup (Hook Ev)))) (data : Bytes)
    (incoming fake : Bool)
    (hne : mapGet registry HCode.star ≠ none ∨
      mapGet registry (HCode.num (readUInt16LE data 2)) ≠ none) :
    handle codec proto registry data incoming fake =
      (if (handleRun codec proto (readUInt16LE data 2) (mapGet registry HCode.star)
            (mapGet registry (HCode.num (readUInt16LE data 2))) data incoming fake).silenced
       then none
       else some (handleRun codec proto (readUInt16LE data 2) (mapGet registry HCode.star)
            (mapGet registry (HCode.num (readUInt16LE data 2))) data incoming fake).data) := by
  rcases hg : mapGet registry HCode.star with _ | gl <;>
    rcases hc : mapGet registry (HCode.num (readUInt16LE data 2)) with _ | cl
  · simp [hg, hc] at hne
  all_goals simp only [handle, hg, hc]

theorem C6_handle_return {Ev : Type} (codec : Codec Ev) (proto : Nat)
    (registry : List (HCode × List (HookGroup (Hook Ev)))) (data : Bytes)
    (incoming fake : Bool) :
    (handle codec proto registry data incoming fake = none ↔
      (handleRun codec proto (readUInt16LE data 2) (mapGet registry HCode.star)
        (mapGet registry (HCode.num (readUInt16LE data 2))) data incoming fake).silenced = true) ∧
    ((handleRun codec proto (readUInt16LE data 2) (mapGet registry HCode.star)
        (mapGet registry (HCode.num (readUInt16LE data 2))) data incoming fake).silenced = false →
      handle codec proto registry data incoming fake = some
        (handleRun codec proto (readUInt16LE data 2) (mapGet registry HCode.star)
          (mapGet registry (HCode.num (readUInt16LE data 2))) data incoming fake).data) ∧
    (mapGet registry HCode.star = none →
      mapGet registry (HCode.num (readUInt16LE data 2)) = none →
      handle codec proto registry data incoming fake = some data) := by
  by_cases hg : mapGet registry HCode.star = none
  · by_cases hc : mapGet registry (HCode.num (readUInt16LE data 2)) = none
    · -- no hooks at all: handleRun folds over the empty merge and never silences
      have hrun : handleRun codec proto (readUInt16LE data 2) none none data incoming fake =
          { data := data } := by
        simp [handleRun, iterateHooks]
      refine ⟨?_, fun _ => ?_, fun _ _ => ?_⟩
      · rw [handle_no_hooks codec proto registry data incoming fake hg hc, hg, hc, hrun]
        simp
      · rw [handle_no_hooks codec proto registry data incoming fake hg hc, hg, hc, hrun]
      · exact handle_no_hooks codec proto registry data incoming fake hg hc
    · refine ⟨?_, fun hsf => ?_, fun _ hc2 => absurd hc2 hc⟩
      · rw [handle_eq_run codec proto registry data incoming fake (Or.inr hc)]
        rcases hss : (handleRun codec proto (readUInt16LE data 2) (mapGet registry HCode.star)
          (mapGet registry (HCode.num (readUInt16LE data 2))) data incoming fake).silenced <;>
          simp [hss]
      · rw [handle_eq_run codec proto registry data incoming fake (Or.inr hc), hsf]
        simp
  · refine ⟨?_, fun hsf => ?_, fun hg2 _ => absurd hg2 hg⟩
    · rw [handle_eq_run codec proto registry data incoming fake (Or.inl hg)]
      rcases hss : (handleRun codec proto (readUInt16LE data 2) (mapGet registry HCode.star)
        (mapGet registry (HCode.num (readUInt16LE data 2))) data incoming fake).silenced <;>
        simp [hss]
    · rw [handle_eq_run codec proto registry data incoming fake (Or.inl hg), hsf]
      simp

/-- Witness for C6 at a concrete input: with an empty registry the input
frame comes back unchanged. -/
theorem C6_witness :
    handle codec0 0 ([] : List (HCode × List (HookGroup (Hook Nat)))) [6, 0, 52, 18]
      true false = some [6, 0, 52, 18] :=
  (C6_handle_return codec0 0 [] [6, 0, 52, 18] true false).2.2 rfl rfl

/-- A recorded invocation is consistent with its hook's filter: every
non-`null` filter field equals the frame flag recorded at the moment the
hook ran. -/
def entryOk (e : InvEntry) : Prop :=
  (∀ b, e.filter.fake = some b → e.fake = b) ∧
  (∀ b, e.filter.incoming = some b → e.incoming = b) ∧
  (∀ b, e.filter.modified = some b → e.modified = b) ∧
  (∀ b, e.filter.silenced = some b → e.silenced = b)

theorem filterPass_entryOk (f : Filter) (fk inc mo si : Bool) (br : Option Bool)
    (h : filterPass f fk inc mo si = true) :
    entryOk ⟨f, fk, inc, mo, si, br⟩ := by
  rw [filterPass] at h
  simp only [Bool.and_eq_true] at h
  obtain ⟨⟨⟨h1, h2⟩, h3⟩, h4⟩ := h
  refine ⟨fun b hb => ?_, fun b hb => ?_, fun b hb => ?_, fun b hb => ?_⟩
  · rw [hb] at h1; simpa using (beq_iff_eq.mp h1).symm
  · rw [hb] at h2; simpa using (beq_iff_eq.mp h2).symm
  · rw [hb] at h3; simpa using (beq_iff_eq.mp h3).symm
  · rw [hb] at h4; simpa using (beq_iff_eq.mp h4).symm

/-- One dispatch-loop step appends at most one invocation record, and any
appended record passed its filter check and carries `byRef` equal to `none`
(raw hook) or to the `lastHook` flag of line 459 (structured hook). -/
theorem runHook_invocations {Ev : Type} (codec : Codec Ev) (proto code : Nat)
    (incoming fake : Bool) (copy : Bytes) (cnt : Option Nat) (st : HState Ev)
    (h : Hook Ev) :
    (runHook codec proto code incoming fake copy cnt st h).invocations = st.invocations ∨
    ∃ e, (runHook codec proto code incoming fake copy cnt st h).invocations =
        st.invocations ++ [e] ∧ entryOk e ∧
        (e.byRef = none ∨ e.byRef = some (isLastHook (st.iter + 1) cnt)) := by
  by_cases hf : filterPass h.filter fake incoming st.modified st.silenced = true
  · rcases h with ⟨f, hk⟩
    rcases hk with cb | ⟨v, cb⟩
    · rcases hr : (cb code st.data incoming fake).2 with b | _ | bb | _ <;>
        (right
         refine ⟨⟨f, fake, incoming, st.modified, st.silenced, none⟩, ?_,
           filterPass_entryOk f fake incoming st.modified st.silenced none hf, Or.inl rfl⟩
         simp [runHook, hf, hr])
    · rcases hr : (cb (parsedEvent codec proto code st v) fake).2 <;>
        (right
         refine ⟨⟨f, fake, incoming, st.modified, st.silenced,
             some (isLastHook (st.iter + 1) cnt)⟩, ?_,
           filterPass_entryOk f fake incoming st.modified st.silenced _ hf, Or.inr rfl⟩
         simp [runHook, hf, hr])
  · left
    simp [runHook, hf]

/-- Every invocation record produced by the dispatch loop is filter-consistent
and, when `isLastHook` can never fire (the count is `NaN`), never carries
`byRef = some true`. -/
theorem foldl_invocations_ok {Ev : Type} (codec : Codec Ev) (proto code : Nat)
    (incoming fake : Bool) (copy : Bytes) (cnt : Option Nat)
    (hcnt : ∀ iter, isLastHook iter cnt = false) :
    ∀ (hooks : List (Hook Ev)) (st : HState Ev),
      (∀ e ∈ st.invocations, entryOk e ∧ e.byRef ≠ some true) →
      ∀ e ∈ (hooks.foldl (runHook codec proto code incoming fake copy cnt) st).invocations,
        entryOk e ∧ e.byRef ≠ some true := by
  intro hooks
  induction hooks with
  | nil => intro st hst; simpa using hst
  | cons h rest ih =>
    intro st hst
    simp only [List.foldl_cons]
    apply ih
    rcases runHook_invocations codec proto code incoming fake copy cnt st h with
      heq | ⟨e, heq, hok, hbr⟩
    · rw [heq]; exact hst
    · rw [heq]
      intro e' he'
      rcases List.mem_append.mp he' with hin | hnew
      · exact hst e' hin
      · have : e' = e := by simpa using hnew
        subst this
        refine ⟨hok, ?_⟩
        rcases hbr with hb | hb
        · rw [hb]; simp
        · rw [hb, hcnt (st.iter + 1)]; simp

/-- Every invocation of a full `handleRun` is filter-consistent and received
its event by clone, not by reference (`byRef ≠ some true`): the hook count of
line 459 is `NaN` whenever any hooks exist at all. -/
theorem handleRun_entries {Ev : Type} (codec : Codec Ev) (proto code : Nat)
    (gh ch : Option (List (HookGroup (Hook Ev)))) (data : Bytes) (incoming fake : Bool) :
    ∀ e ∈ (handleRun codec proto code gh ch data incoming fake).invocations,
      entryOk e ∧ e.byRef ≠ some true := by
  rcases gh with _ | gl <;> rcases ch with _ | cl
  · -- no hooks: the merged sequence is empty and nothing is recorded
    intro e he
    simp [handleRun, iterateHooks] at he
  · exact foldl_invocations_ok codec proto code incoming fake data
      (hooksCount (none : Option (List (HookGroup (Hook Ev)))) (some cl)) (fun _ => rfl)
      _ { data := data } (by simp)
  · exact foldl_invocations_ok codec proto code incoming fake data
      (hooksCount (some gl) (none : Option (List (HookGroup (Hook Ev))))) (fun _ => rfl)
      _ { data := data } (by simp)
  · exact foldl_invocations_ok codec proto code incoming fake data
      (hooksCount (some gl) (some cl)) (fun _ => rfl)
      _ { data := data } (by simp)

/-- C9: in every `handle` invocation a hook's callback runs only when every
non-`null` field of its filter equals the corresponding frame flag at the
moment the hook is reached; in particular `filter.incoming = true` never runs
on an outgoing frame and `filter.modified = true` never runs before a prior
hook has mutated the frame. -/
theorem C9_filter_semantics {Ev : Type} (codec : Codec Ev) (proto code : Nat)
    (gh ch : Option (List (HookGroup (Hook Ev)))) (data : Bytes) (incoming fake : Bool) :
    ∀ e ∈ (handleRun codec proto code gh ch data incoming fake).invocations,
      (∀ b, e.filter.fake = some b → e.fake = b) ∧
      (∀ b, e.filter.incoming = some b → e.incoming = b) ∧
      (∀ b, e.filter.modified = some b → e.modified = b) ∧
      (∀ b, e.filter.silenced = some b → e.silenced = b) :=
  fun e he => (handleRun_entries codec proto code gh ch data incoming fake e he).1

/-- C4 (code behaviour at the failing input): no structured hook — not even
the last one to run — ever receives the cached event by reference, because
line 449 computes the hook count with `.size` on Arrays (`undefined`), so
`lastHook` at line 459 compares against `NaN` and is always false; every
structured hook gets a deep clone. -/
theorem C4_every_structured_hook_gets_clone {Ev : Type} (codec : Codec Ev)
    (proto code : Nat) (gh ch : Option (List (HookGroup (Hook Ev)))) (data : Bytes)
    (incoming fake : Bool) :
    ∀ e ∈ (handleRun codec proto code gh ch data incoming fake).invocations,
      e.byRef ≠ some true :=
  fun e he => (handleRun_entries codec proto code gh ch data incoming fake e he).2

/-- A structured hook whose callback is always a member of a no-commit run:
its filter may or may not pass, but on `ObjRet.other` results nothing
observable changes. -/
def hookOther : Hook Nat :=
  ⟨filter0, .structured (.num 1) (fun e _ => (e, ObjRet.other))⟩

/-- A structured hook whose callback always returns strictly `true`. -/
def hookTrue : Hook Nat :=
  ⟨filter0, .structured (.num 1) (fun e _ => (e, ObjRet.tru))⟩

/-- The invocation record left by `hookOther` as first hook of a real
(non-fake, outgoing) frame. -/
def entry0 : InvEntry :=
  ⟨filter0, false, false, false, false, some false⟩

/-- Witness for C9 at a concrete input. -/
theorem C9_witness :
    entry0 ∈ (handleRun codec0 0 0 none (some [⟨0, [hookOther]⟩]) [1] false
        false).invocations ∧
    ((∀ b, entry0.filter.fake = some b → entry0.fake = b) ∧
     (∀ b, entry0.filter.incoming = some b → entry0.incoming = b) ∧
     (∀ b, entry0.filter.modified = some b → entry0.modified = b) ∧
     (∀ b, entry0.filter.silenced = some b → entry0.silenced = b)) := by
  have hmem : entry0 ∈ (handleRun codec0 0 0 none (some [⟨0, [hookOther]⟩]) [1] false
      false).invocations := by
    simp [handleRun, iterateHooks, runHook, hookOther, filter0, entry0, filterPass,
      isLastHook, hooksCount, jsSizeTerm, parsedEvent, cacheAfterLookup,
      parseLogAfterLookup, cacheGet, codec0]
  exact ⟨hmem,
    C9_filter_semantics codec0 0 0 none (some [⟨0, [hookOther]⟩]) [1] false false
      entry0 hmem⟩

/-- Witness for C4's theorem at a concrete input. -/
theorem C4_witness :
    entry0 ∈ (handleRun codec0 0 0 none (some [⟨0, [hookOther]⟩]) [1] false
        false).invocations ∧
    entry0.byRef ≠ some true := by
  have hmem : entry0 ∈ (handleRun codec0 0 0 none (some [⟨0, [hookOther]⟩]) [1] false
      false).invocations := by
    simp [handleRun, iterateHooks, runHook, hookOther, filter0, entry0, filterPass,
      isLastHook, hooksCount, jsSizeTerm, parsedEvent, cacheAfterLookup,
      parseLogAfterLookup, cacheGet, codec0]
  exact ⟨hmem,
    C4_every_structured_hook_gets_clone codec0 0 0 none (some [⟨0, [hookOther]⟩])
      [1] false false entry0 hmem⟩

/-! ## Parse-cache behaviour (C2) -/

/-- The per-invocation cache invariant: the ghost parse log has no duplicate
definition versions, and the cache holds exactly the versions parsed so far. -/
def CacheInv {Ev : Type} (st : HState Ev) : Prop :=
  st.parseLog.Nodup ∧ ∀ v, (cacheGet st.cache v).isSome ↔ v ∈ st.parseLog

/-- A hook that never commits: if structured, its callback never returns
strictly `true` (so it never clears the event cache at line 503). -/
def HookNoCommit {Ev : Type} (h : Hook Ev) : Prop :=
  match h.kind with
  | .raw _ => True
  | .structured _ cb => ∀ e f, (cb e f).2 ≠ ObjRet.tru

theorem cacheGet_append_isSome {Ev : Type} (c : List (SVer × Ev)) (v : SVer) (e : Ev)
    (w : SVer) :
    (cacheGet (c ++ [(v, e)]) w).isSome ↔ (cacheGet c w).isSome ∨ w = v := by
  induction c with
  | nil =>
    rcases hb : (v == w) with _ | _
    · have hne : ¬ (w = v) := by
        intro hwv
        subst hwv
        simp at hb
      simp [cacheGet, List.find?_cons, hb, hne]
    · have heq : w = v := (beq_iff_eq.mp hb).symm
      simp [cacheGet, List.find?_cons, hb, heq]
  | cons p rest ih =>
    rcases hb : (p.1 == w) with _ | _
    · simpa [cacheGet, List.find?_cons, hb] using ih
    · simp [cacheGet, List.find?_cons, hb]

theorem cacheGet_cacheSet_isSome {Ev : Type} (c : List (SVer × Ev)) (v : SVer) (e : Ev)
    (w : SVer) :
    (cacheGet (cacheSet c v e) w).isSome = (cacheGet c w).isSome := by
  induction c with
  | nil => simp [cacheGet, cacheSet]
  | cons p rest ih =>
    rcases hv : (p.1 == v) with _ | _ <;> rcases hw : (p.1 == w) with _ | _
    · simpa [cacheGet, cacheSet, List.find?_cons, hv, hw] using ih
    · simp [cacheGet, cacheSet, List.find?_cons, hv, hw]
    · simpa [cacheGet, cacheSet, List.find?_cons, hv, hw] using ih
    · simp [cacheGet, cacheSet, List.find?_cons, hv, hw]

/-- One dispatch-loop step preserves the cache invariant provided the hook
never returns strictly `true`. -/
theorem runHook_cacheInv {Ev : Type} (codec : Codec Ev) (proto code : Nat)
    (incoming fake : Bool) (copy : Bytes) (cnt : Option Nat) (st : HState Ev)
    (h : Hook Ev) (hnc : HookNoCommit h) (hI : CacheInv st) :
    CacheInv (runHook codec proto code incoming fake copy cnt st h) := by
  by_cases hf : filterPass h.filter fake incoming st.modified st.silenced = true
  · rcases h with ⟨f, hk⟩
    rcases hk with cb | ⟨v, cb⟩
    · -- raw hooks never touch the cache or the parse log
      have hc : (runHook codec proto code incoming fake copy cnt st ⟨f, .raw cb⟩).cache
          = st.cache := by
        rcases hr : (cb code st.data incoming fake).2 <;> simp [runHook, hf, hr]
      have hp : (runHook codec proto code incoming fake copy cnt st ⟨f, .raw cb⟩).parseLog
          = st.parseLog := by
        rcases hr : (cb code st.data incoming fake).2 <;> simp [runHook, hf, hr]
      refine ⟨?_, fun w => ?_⟩
      · rw [hp]; exact hI.1
      · rw [hc, hp]; exact hI.2 w
    · have hnc' : ∀ e fk, (cb e fk).2 ≠ ObjRet.tru := by
        simpa [HookNoCommit] using hnc
      rcases hr : (cb (parsedEvent codec proto code st v) fake).2 with _ | _ | _
      · exact absurd hr (hnc' _ _)
      all_goals
        have hcache : (runHook codec proto code incoming fake copy cnt st
            ⟨f, .structured v cb⟩).cache =
            (if isLastHook (st.iter + 1) cnt then
              cacheSet (cacheAfterLookup codec proto code st v) v
                (cb (parsedEvent codec proto code st v) fake).1
            else cacheAfterLookup codec proto code st v) := by
          simp [runHook, hf, hr]
        have hlog : (runHook codec proto code incoming fake copy cnt st
            ⟨f, .structured v cb⟩).parseLog = parseLogAfterLookup st v := by
          simp [runHook, hf, hr]
        have hsome : ∀ w, (cacheGet (runHook codec proto code incoming fake copy cnt st
            ⟨f, .structured v cb⟩).cache w).isSome
            = (cacheGet (cacheAfterLookup codec proto code st v) w).isSome := by
          intro w
          rw [hcache]
          by_cases hl : isLastHook (st.iter + 1) cnt = true
          · rw [if_pos hl, cacheGet_cacheSet_isSome]
          · rw [if_neg hl]
        obtain ⟨hnd, hiff⟩ := hI
        rcases hcv : cacheGet st.cache v with _ | e0
        · -- cache miss: the version is parsed, logged and cached
          have hvnotin : v ∉ st.parseLog := by
            intro hin
            have := (hiff v).mpr hin
            rw [hcv] at this
            simp at this
          refine ⟨?_, fun w => ?_⟩
          · rw [hlog]
            simp only [parseLogAfterLookup, hcv]
            rw [List.nodup_append]
            refine ⟨hnd, List.nodup_singleton v, ?_⟩
            intro a ha hav
            rw [List.mem_singleton] at hav
            subst hav
            exact hvnotin ha
          · rw [hsome w, hlog]
            simp only [cacheAfterLookup, parseLogAfterLookup, hcv]
            rw [cacheGet_append_isSome, hiff w]
            simp [List.mem_append]
        · -- cache hit: nothing changes
          refine ⟨?_, fun w => ?_⟩
          · rw [hlog]
            simp only [parseLogAfterLookup, hcv]
            exact hnd
          · rw [hsome w, hlog]
            simp only [cacheAfterLookup, parseLogAfterLookup, hcv]
            exact hiff w
  · have heq : runHook codec proto code incoming fake copy cnt st h = st := by
      simp [runHook, hf]
    rw [heq]
    exact hI

theorem foldl_cacheInv {Ev : Type} (codec : Codec Ev) (proto code : Nat)
    (incoming fake : Bool) (copy : Bytes) (cnt : Option Nat)
    (hooks : List (Hook Ev)) (hnc : ∀ h ∈ hooks, HookNoCommit h) :
    ∀ st : HState Ev, CacheInv st →
      CacheInv (hooks.foldl (runHook codec proto code incoming fake copy cnt) st) := by
  induction hooks with
  | nil => intro st hst; simpa using hst
  | cons h rest ih =>
    intro st hst
    simp only [List.foldl_cons]
    exact ih (fun h' hh' => hnc h' (by simp [hh']))
      _ (runHook_cacheInv codec proto code incoming fake copy cnt st h
          (hnc h (by simp)) hst)

/-- C2 (amended): in a single `handle` invocation in which no structured
hook's callback returns strictly `true` (so the event cache is never
cleared), codec `parse` is invoked at most once per distinct definition
version. -/
theorem C2_parse_once_per_version_no_commit {Ev : Type} (codec : Codec Ev)
    (proto code : Nat) (gh ch : Option (List (HookGroup (Hook Ev)))) (data : Bytes)
    (incoming fake : Bool)
    (hnc : ∀ h ∈ iterateHooks (gh.getD []) (ch.getD []), HookNoCommit h) :
    (handleRun codec proto code gh ch data incoming fake).parseLog.Nodup :=
  (foldl_cacheInv codec proto code incoming fake data (hooksCount gh ch) _ hnc
    { data := data } ⟨List.nodup_nil, fun v => by simp [cacheGet]⟩).1

/-- Witness for C2's amended claim at a concrete input. -/
theorem C2_witness :
    (handleRun codec0 0 0 none (some [⟨0, [hookOther]⟩]) [1] false false).parseLog.Nodup := by
  apply C2_parse_once_per_version_no_commit
  intro h hh
  have : h = hookOther := by
    simpa [iterateHooks] using hh
  subst this
  intro e f
  simp [hookOther]

/-- Counterexample to C2 as stated: with two hooks on definition version 1,
the first returning strictly `true` (which clears the event cache), codec
`parse` runs twice for version 1 in one `handle` invocation. -/
theorem C2_counterexample :
    (handleRun codec0 0 0 none (some [⟨0, [hookTrue, hookOther]⟩]) [1] false
        false).parseLog = [SVer.num 1, SVer.num 1] ∧
    ¬ (handleRun codec0 0 0 none (some [⟨0, [hookTrue, hookOther]⟩]) [1] false
        false).parseLog.Nodup := by
  have hrun : (handleRun codec0 0 0 none (some [⟨0, [hookTrue, hookOther]⟩]) [1] false
      false).parseLog = [SVer.num 1, SVer.num 1] := by
    simp [handleRun, iterateHooks, runHook, hookTrue, hookOther, filter0, filterPass,
      isLastHook, hooksCount, jsSizeTerm, parsedEvent, cacheAfterLookup,
      parseLogAfterLookup, cacheGet, codec0]
  refine ⟨hrun, ?_⟩
  rw [hrun]
  simp

/-! ## Hook registration: `Dispatch.hook` (`index.js` lines 195-263) -/

/-- The protocol state consulted by `Dispatch.hook`: the name-to-opcode map
of the active protocol version (`this.protocolMap.name`) and, for each
message name, the list of definition versions that have a schema
(`protocol.messages`; `latestDefVersion` is derived from it at load time,
lines 12-18). -/
structure ProtoEnv where
  nameMap : List (String × Nat)
  messages : List (String × List Nat)

/-- Models the module-level `latestDefVersion` map: `Math.max(...defs.keys())`
per message name (`none` when the name has no entry, mirroring `undefined`;
an empty version list gives `none`, mirroring `-Infinity`, which compares
`false` below exactly as `none` does). -/
def latestDefVersion (env : ProtoEnv) (name : String) : Option Nat :=
  (mapGet env.messages name).bind (fun defs => defs.max?)

/-- Does a schema exist at this exact version (`protocol.messages.get(name)`
then `.get(version)`, line 219-220)?  A `*` version never finds one: the
inner map is keyed by numbers. -/
def hasDef (env : ProtoEnv) (name : String) (v : SVer) : Bool :=
  match mapGet env.messages name with
  | none => false
  | some defs =>
    match v with
    | .star => false
    | .num n => defs.contains n

/-- Models the JS comparison `latestDefVersion.get(name) > version` (line
222): `undefined > v` is `false`, and a comparison against the string `'*'`
is `false` (`NaN`). -/
def jsGtLatest : Option Nat → SVer → Bool
  | some l, .num v => decide (v < l)
  | _, _ => false

/-- The errors `Dispatch.hook` can throw while resolving the opcode
(lines 197-228). -/
inductive HookErr
  | wildcardNumericVersion
  | unmappedPacket
  | obsoleteDefinition
  | definitionNotFound
  deriving Repr, DecidableEq

/-- A definition version as passed to `Dispatch.hook`: a number, `'*'`, or
`'raw'` (any other value is rejected by the `typeof` guard of line 197,
before this logic runs). -/
inductive DefVer
  | raw
  | ver (v : SVer)
  deriving Repr, DecidableEq

/-- Embedding of the opcode-resolution and validation part of
`Dispatch.hook` (lines 204-228). -/
def hookResolveCode (env : ProtoEnv) (name : String) (version : DefVer) :
    Except HookErr HCode :=
  if name = "*" then
    match version with
    | .ver (.num _) => .error .wildcardNumericVersion
    | _ => .ok .star
  else
    match mapGet env.nameMap name with
    | none => .error .unmappedPacket
    | some code =>
      match version with
      | .raw => .ok (.num code)
      | .ver sv =>
        if hasDef env name sv then .ok (.num code)
        else if jsGtLatest (latestDefVersion env name) sv then .error .obsoleteDefinition
        else .error .definitionNotFound

/-- JS `Map.prototype.set`: replace the binding of an existing key, else
append. -/
def mapSet {κ β : Type} [BEq κ] : List (κ × β) → κ → β → List (κ × β)
  | [], k, v => [(k, v)]
  | p :: rest, k, v => if p.1 == k then (k, v) :: rest else p :: mapSet rest k v

/-- The insertion part of `Dispatch.hook` (lines 253-260): create the
per-code ordering if needed, then binary-search insert. -/
def registryInsert {α : Type} (reg : List (HCode × List (HookGroup α))) (code : HCode)
    (order : Int) (h : α) : List (HCode × List (HookGroup α)) :=
  mapSet reg code (insertHook ((mapGet reg code).getD []) order h)

/-- Embedding of `Dispatch.hook` for a named or wildcard message: resolve
and validate, then insert; a thrown error aborts with no registry change
(the `Except.error` carries no registry). -/
def hookRegister {α : Type} (env : ProtoEnv) (reg : List (HCode × List (HookGroup α)))
    (name : String) (version : DefVer) (order : Int) (h : α) :
    Except HookErr (List (HCode × List (HookGroup α))) :=
  match hookResolveCode env name version with
  | .error e => .error e
  | .ok code => .ok (registryInsert reg code order h)

/-- C7 (amended): for a named message the protocol map resolves, with numeric
non-`raw` version, *when no schema exists at that exact version*: if the
version is older than the latest known one the registration fails with
`ObsoleteDefinition`, otherwise (newer, or name unknown to the codec) with
`UnknownDefinition` (`definition not found`); either failure aborts the
registration. -/
theorem C7_missing_schema_errors {α : Type} (env : ProtoEnv)
    (reg : List (HCode × List (HookGroup α))) (name : String) (c : Nat) (v : Nat)
    (order : Int) (h : α)
    (hname : ¬ (name = "*"))
    (hcode : mapGet env.nameMap name = some c)
    (hnodef : hasDef env name (.num v) = false) :
    hookRegister env reg name (.ver (.num v)) order h =
      .error (if jsGtLatest (latestDefVersion env name) (.num v)
              then HookErr.obsoleteDefinition else HookErr.definitionNotFound) := by
  rcases hgt : jsGtLatest (latestDefVersion env name) (.num v) with _ | _ <;>
    simp [hookRegister, hookResolveCode, hname, hcode, hnodef, hgt]

/-- A protocol state where message `A` maps to opcode 7 and only definition
version 2 has a schema. -/
def env7 : ProtoEnv :=
  ⟨[("A", 7)], [("A", [2])]⟩

/-- Witness for C7's amended claim: requesting `A` at the obsolete version 1
fails with `ObsoleteDefinition`. -/
theorem C7_witness :
    hookRegister env7 ([] : List (HCode × List (HookGroup Unit))) "A"
      (.ver (.num 1)) 0 () = .error HookErr.obsoleteDefinition := by
  have h := C7_missing_schema_errors env7 ([] : List (HCode × List (HookGroup Unit)))
    "A" 7 1 0 () (by decide) (by rfl) (by rfl)
  simpa using h

/-- A protocol state where message `A` maps to opcode 7 and definition
versions 1 and 2 both have schemas. -/
def env8 : ProtoEnv :=
  ⟨[("A", 7)], [("A", [1, 2])]⟩

/-- Counterexample to C7 as stated: version 1 is older than the latest known
version (2), yet registration succeeds, because a schema exists at version 1
— the source only throws when the schema lookup fails. -/
theorem C7_counterexample :
    jsGtLatest (latestDefVersion env8 "A") (SVer.num 1) = true ∧
    hookRegister env8 ([] : List (HCode × List (HookGroup Unit))) "A"
      (.ver (.num 1)) 0 () = .ok [(HCode.num 7, [⟨0, [()]⟩])] :=
  ⟨rfl, rfl⟩

/-! ## Unregistration: `Dispatch.unhook` (`index.js` lines 265-272) -/

/-- A registered hook as `unhook` sees it: `id` models the JS object identity
used by `h !== hook` (ids are unique per created hook), `timeout` the armed
one-shot timer handle, if any. -/
structure HookRec where
  id : Nat
  code : HCode
  order : Int
  timeout : Option Nat
  deriving Repr, DecidableEq

/-- Line 268-269: find the first group whose `order` equals the hook's and
replace its hook list by one with the hook object filtered out. -/
def filterGroupFirst : List (HookGroup HookRec) → Int → Nat → List (HookGroup HookRec)
  | [], _, _ => []
  | g :: rest, o, hid =>
    if g.order = o then
      { g with hooks := g.hooks.filter (fun x => x.id != hid) } :: rest
    else g :: filterGroupFirst rest o hid

/-- JS `Array.prototype.find` over a per-code ordering (line 268). -/
def groupFor (ord : List (HookGroup HookRec)) (o : Int) : Option (HookGroup HookRec) :=
  ord.find? (fun g => g.order == o)

/-- Embedding of `Dispatch.unhook(hook)`: if the registry has no entry for
the hook's code, return unchanged (line 266, which also skips the
`clearTimeout`); otherwise filter the hook out of the first group with its
order and cancel its timeout if armed.  `timers` is the set of armed timer
handles; `clearTimeout` removes one. -/
def unhook (reg : List (HCode × List (HookGroup HookRec))) (timers : List Nat)
    (h : HookRec) : List (HCode × List (HookGroup HookRec)) × List Nat :=
  match mapGet reg h.code with
  | none => (reg, timers)
  | some ordering =>
    (mapSet reg h.code (filterGroupFirst ordering h.order h.id),
     match h.timeout with
     | some t => timers.erase t
     | none => timers)

theorem mapGet_mapSet_same {κ β : Type} [BEq κ] [LawfulBEq κ] (m : List (κ × β))
    (k : κ) (v : β) : mapGet (mapSet m k v) k = some v := by
  induction m with
  | nil => simp [mapGet, mapSet, List.find?_cons]
  | cons p rest ih =>
    rcases hp : (p.1 == k) with _ | _
    · simpa [mapGet, mapSet, List.find?_cons, hp] using ih
    · simp [mapGet, mapSet, List.find?_cons, hp]

theorem mapSet_mapSet_same {κ β : Type} [BEq κ] [LawfulBEq κ] (m : List (κ × β))
    (k : κ) (v w : β) : mapSet (mapSet m k v) k w = mapSet m k w := by
  induction m with
  | nil => simp [mapSet]
  | cons p rest ih =>
    rcases hp : (p.1 == k) with _ | _
    · simp [mapSet, hp, ih]
    · simp [mapSet, hp]

theorem filter_id_idem (l : List HookRec) (hid : Nat) :
    (l.filter (fun x => x.id != hid)).filter (fun x => x.id != hid)
      = l.filter (fun x => x.id != hid) := by
  induction l with
  | nil => simp
  | cons x rest ih =>
    rcases hx : (x.id != hid) with _ | _
    · simp [List.filter_cons, hx, ih]
    · simp [List.filter_cons, hx, ih]

theorem filterGroupFirst_idem (ord : List (HookGroup HookRec)) (o : Int) (hid : Nat) :
    filterGroupFirst (filterGroupFirst ord o hid) o hid = filterGroupFirst ord o hid := by
  induction ord with
  | nil => simp [filterGroupFirst]
  | cons g rest ih =>
    by_cases hg : g.order = o
    · simp [filterGroupFirst, hg, filter_id_idem]
    · simp [filterGroupFirst, hg, ih]

theorem groupFor_filterGroupFirst (ord : List (HookGroup HookRec)) (o : Int) (hid : Nat) :
    groupFor (filterGroupFirst ord o hid) o =
      (groupFor ord o).map
        (fun g => { g with hooks := g.hooks.filter (fun x => x.id != hid) }) := by
  induction ord with
  | nil => simp [filterGroupFirst, groupFor]
  | cons g rest ih =>
    by_cases hg : g.order = o
    · simp [filterGroupFirst, groupFor, List.find?_cons, hg]
    · have hg' : ¬ ((g.order == o) = true) := by simpa using hg
      simp only [filterGroupFirst, hg, if_neg, not_false_iff, groupFor,
        List.find?_cons] at *
      rcases hb : (g.order == o) with _ | _
      · simpa [hb] using ih
      · exact absurd hb hg'

/-- C8: for every previously registered hook (so its code has a registry
entry; `Dispatch.hook` creates the entry and nothing ever deletes keys),
`unhook` removes the hook from its group, cancels its one-shot timeout if one
was armed, and calling `unhook` again leaves the whole state — registry and
timers — exactly as after the first call, whether or not a timeout was
armed. -/
theorem C8_unhook_removes_and_idempotent
    (reg : List (HCode × List (HookGroup HookRec))) (timers : List Nat) (h : HookRec)
    (ord : List (HookGroup HookRec))
    (hcode : mapGet reg h.code = some ord)
    (hnd : timers.Nodup) :
    unhook (unhook reg timers h).1 (unhook reg timers h).2 h = unhook reg timers h ∧
    (∀ g, groupFor ((mapGet (unhook reg timers h).1 h.code).getD []) h.order = some g →
      ∀ x ∈ g.hooks, x.id ≠ h.id) ∧
    (∀ t, h.timeout = some t → t ∉ (unhook reg timers h).2) := by
  have hget2 : mapGet (unhook reg timers h).1 h.code
      = some (filterGroupFirst ord h.order h.id) := by
    have hreg : (unhook reg timers h).1
        = mapSet reg h.code (filterGroupFirst ord h.order h.id) := by
      simp [unhook, hcode]
    rw [hreg]
    exact mapGet_mapSet_same reg h.code (filterGroupFirst ord h.order h.id)
  refine ⟨?_, ?_, ?_⟩
  · -- idempotence, with and without an armed timeout
    rcases ht : h.timeout with _ | t
    · have hu1 : unhook reg timers h
          = (mapSet reg h.code (filterGroupFirst ord h.order h.id), timers) := by
        simp [unhook, hcode, ht]
      rw [hu1]
      simp only [unhook, mapGet_mapSet_same, ht]
      rw [filterGroupFirst_idem, mapSet_mapSet_same]
    · have hu1 : unhook reg timers h
          = (mapSet reg h.code (filterGroupFirst ord h.order h.id), timers.erase t) := by
        simp [unhook, hcode, ht]
      have hnotmem : t ∉ timers.erase t := by
        intro hmem
        exact ((List.Nodup.mem_erase_iff hnd).mp hmem).1 rfl
      rw [hu1]
      simp only [unhook, mapGet_mapSet_same, ht]
      rw [filterGroupFirst_idem, mapSet_mapSet_same,
        List.erase_of_not_mem hnotmem]
  · -- the hook is gone from the first group with its order
    intro g hg x hx
    simp only [hget2, Option.getD_some] at hg
    rw [groupFor_filterGroupFirst] at hg
    rcases ho : groupFor ord h.order with _ | g0
    · rw [ho] at hg
      simp at hg
    · rw [ho] at hg
      have hg' : { g0 with hooks := g0.hooks.filter (fun x => x.id != h.id) } = g := by
        simpa using hg
      subst hg'
      have := List.of_mem_filter hx
      simpa using this
  · -- the armed timer handle, if any, is cancelled
    intro t ht
    have hu2 : (unhook reg timers h).2 = timers.erase t := by
      simp [unhook, hcode, ht]
    rw [hu2]
    intro hmem
    exact ((List.Nodup.mem_erase_iff hnd).mp hmem).1 rfl

/-- A hook whose one-shot timer 77 is armed, registered alone under
opcode 3. -/
def hookW : HookRec :=
  ⟨5, HCode.num 3, 0, some 77⟩

/-- The registry holding only `hookW`. -/
def regW : List (HCode × List (HookGroup HookRec)) :=
  [(HCode.num 3, [⟨0, [hookW]⟩])]

/-- Witness for C8 at a concrete input. -/
theorem C8_witness :
    unhook (unhook regW [77] hookW).1 (unhook regW [77] hookW).2 hookW
      = unhook regW [77] hookW ∧
    77 ∉ (unhook regW [77] hookW).2 := by
  have h := C8_unhook_removes_and_idempotent regW [77] hookW [⟨0, [hookW]⟩]
    rfl (by simp)
  exact ⟨h.1, h.2.2 77 rfl⟩

/-! ## `deepClone` (`index.js` lines 543-559)

JavaScript values with explicit object identity: every mutable node (buffer,
codec custom-type instance, array, plain object) carries an `id` modelling
its heap address; primitives have none.  `deepCloneH` threads a fresh-id
supply: a node it rebuilds gets a fresh id, anything it passes through
keeps its old id (it is the same object — shared between input and clone). -/

/-- A JS primitive value. -/
inductive Prim
  | num (n : Int)
  | str (s : String)
  | boolean (b : Bool)
  | null
  | undef
  deriving Repr, DecidableEq

mutual
inductive HVal
  | buf (id : Nat) (bytes : List Nat)
  | custom (id : Nat) (t : Nat) (fields : HFields)
  | arr (id : Nat) (elems : HElems)
  | obj (id : Nat) (fields : HFields)
  | prim (p : Prim)
inductive HFields
  | nil
  | cons (key : String) (val : HVal) (rest : HFields)
inductive HElems
  | nil
  | cons (val : HVal) (rest : HElems)
end

/-- JS `typeof x === 'object'`: true for buffers, custom instances, arrays,
plain objects — and for `null`. -/
def isJsObject : HVal → Bool
  | .buf _ _ => true
  | .custom _ _ _ => true
  | .arr _ _ => true
  | .obj _ _ => true
  | .prim .null => true
  | .prim _ => false

mutual
/-- Embedding of `deepClone(obj)` with a fresh-id supply `n`:
`Buffer.from(obj)` rebuilds a buffer; a custom-type instance gets
`Object.assign(Object.create(t.prototype), obj)` — a SHALLOW copy that keeps
every field value as-is; arrays and plain objects are rebuilt with
`typeof val === 'object'` children cloned recursively and other children
copied by value; any other input (primitives, and `null`, whose `typeof` is
`'object'`) falls through to the `for..in` loop over no enumerable
properties and yields a fresh empty plain object. -/
def deepCloneH : Nat → HVal → Nat × HVal
  | n, .buf _ bytes => (n + 1, .buf n bytes)
  | n, .custom _ t fields => (n + 1, .custom n t fields)
  | n, .arr _ elems =>
    let r := cloneElems (n + 1) elems
    (r.1, .arr n r.2)
  | n, .obj _ fields =>
    let r := cloneFields (n + 1) fields
    (r.1, .obj n r.2)
  | n, .prim _ => (n + 1, .obj n .nil)
def cloneFields : Nat → HFields → Nat × HFields
  | n, .nil => (n, .nil)
  | n, .cons k v rest =>
    let rv := if isJsObject v then deepCloneH n v else (n, v)
    let rr := cloneFields rv.1 rest
    (rr.1, .cons k rv.2 rr.2)
def cloneElems : Nat → HElems → Nat × HElems
  | n, .nil => (n, .nil)
  | n, .cons v rest =>
    let rv := if isJsObject v then deepCloneH n v else (n, v)
    let rr := cloneElems rv.1 rest
    (rr.1, .cons rv.2 rr.2)
end

mutual
/-- The identities of all mutable nodes reachable from a value.  Two values
share mutable substructure exactly when these lists intersect. -/
def mutIds : HVal → List Nat
  | .buf id _ => [id]
  | .custom id _ fields => id :: mutIdsF fields
  | .arr id elems => id :: mutIdsE elems
  | .obj id fields => id :: mutIdsF fields
  | .prim _ => []
def mutIdsF : HFields → List Nat
  | .nil => []
  | .cons _ v rest => mutIds v ++ mutIdsF rest
def mutIdsE : HElems → List Nat
  | .nil => []
  | .cons v rest => mutIds v ++ mutIdsE rest
end

mutual
/-- Structural content of a value, identities erased (every id set to 0):
two values are structurally equal when their shapes coincide. -/
def shape : HVal → HVal
  | .buf _ bytes => .buf 0 bytes
  | .custom _ t fields => .custom 0 t (shapeF fields)
  | .arr _ elems => .arr 0 (shapeE elems)
  | .obj _ fields => .obj 0 (shapeF fields)
  | .prim p => .prim p
def shapeF : HFields → HFields
  | .nil => .nil
  | .cons k v rest => .cons k (shape v) (shapeF rest)
def shapeE : HElems → HElems
  | .nil => .nil
  | .cons v rest => .cons (shape v) (shapeE rest)
end

mutual
/-- No `null` appears anywhere in the value. -/
def noNull : HVal → Bool
  | .buf _ _ => true
  | .custom _ _ fields => noNullF fields
  | .arr _ elems => noNullE elems
  | .obj _ fields => noNullF fields
  | .prim .null => false
  | .prim _ => true
def noNullF : HFields → Bool
  | .nil => true
  | .cons _ v rest => noNull v && noNullF rest
def noNullE : HElems → Bool
  | .nil => true
  | .cons v rest => noNull v && noNullE rest
end

/-- All field values are non-object (primitive other than `null`). -/
def fieldsAllPrim : HFields → Bool
  | .nil => true
  | .cons _ v rest => !(isJsObject v) && fieldsAllPrim rest

mutual
/-- Every codec custom-type node in the value has only primitive fields (the
condition under which the shallow `Object.assign` copy shares nothing
mutable). -/
def customOk : HVal → Bool
  | .buf _ _ => true
  | .custom _ _ fields => fieldsAllPrim fields
  | .arr _ elems => customOkE elems
  | .obj _ fields => customOkF fields
  | .prim _ => true
def customOkF : HFields → Bool
  | .nil => true
  | .cons _ v rest => customOk v && customOkF rest
def customOkE : HElems → Bool
  | .nil => true
  | .cons v rest => customOk v && customOkE rest
end

/-- Index access into an object's fields. -/
def fieldsGet : HFields → Nat → Option (String × HVal)
  | .nil, _ => none
  | .cons k v _, 0 => some (k, v)
  | .cons _ _ rest, i + 1 => fieldsGet rest i

mutual
theorem cloneV_supply : ∀ (n : Nat) (v : HVal), n ≤ (deepCloneH n v).1 := fun n v =>
  match v with
  | .buf _ _ => by simp [deepCloneH]
  | .custom _ _ _ => by simp [deepCloneH]
  | .arr _ elems => by
    have h := cloneE_supply (n + 1) elems
    simp only [deepCloneH]
    omega
  | .obj _ fields => by
    have h := cloneF_supply (n + 1) fields
    simp only [deepCloneH]
    omega
  | .prim _ => by simp [deepCloneH]
theorem cloneF_supply : ∀ (n : Nat) (fs : HFields), n ≤ (cloneFields n fs).1 := fun n fs =>
  match fs with
  | .nil => by simp [cloneFields]
  | .cons _ v rest => by
    rcases hv : isJsObject v with _ | _
    · have h := cloneF_supply n rest
      simp only [cloneFields, hv]
      simpa using h
    · have h1 := cloneV_supply n v
      have h2 := cloneF_supply (deepCloneH n v).1 rest
      simp only [cloneFields, hv]
      simp only [if_true]
      omega
theorem cloneE_supply : ∀ (n : Nat) (es : HElems), n ≤ (cloneElems n es).1 := fun n es =>
  match es with
  | .nil => by simp [cloneElems]
  | .cons v rest => by
    rcases hv : isJsObject v with _ | _
    · have h := cloneE_supply n rest
      simp only [cloneElems, hv]
      simpa using h
    · have h1 := cloneV_supply n v
      have h2 := cloneE_supply (deepCloneH n v).1 rest
      simp only [cloneElems, hv]
      simp only [if_true]
      omega
end

mutual
theorem cloneV_shape : ∀ (n : Nat) (v : HVal), isJsObject v = true → noNull v = true →
    shape (deepCloneH n v).2 = shape v := fun n v =>
  match v with
  | .buf _ _ => fun _ _ => by simp [deepCloneH, shape]
  | .custom _ _ _ => fun _ _ => by simp [deepCloneH, shape]
  | .arr _ elems => fun _ hn => by
    have h := cloneE_shape (n + 1) elems (by simpa [noNull] using hn)
    simp only [deepCloneH, shape]
    rw [h]
  | .obj _ fields => fun _ hn => by
    have h := cloneF_shape (n + 1) fields (by simpa [noNull] using hn)
    simp only [deepCloneH, shape]
    rw [h]
  | .prim p => fun ho hn => by
    cases p with
    | null => simp [noNull] at hn
    | num m => simp [isJsObject] at ho
    | str s => simp [isJsObject] at ho
    | boolean b => simp [isJsObject] at ho
    | undef => simp [isJsObject] at ho
theorem cloneF_shape : ∀ (n : Nat) (fs : HFields), noNullF fs = true →
    shapeF (cloneFields n fs).2 = shapeF fs := fun n fs =>
  match fs with
  | .nil => fun _ => by simp [cloneFields]
  | .cons k v rest => fun hn => by
    have hn' : noNull v = true ∧ noNullF rest = true := by
      simpa [noNullF, Bool.and_eq_true] using hn
    rcases hv : isJsObject v with _ | _
    · have h := cloneF_shape n rest hn'.2
      simp only [cloneFields, hv]
      simp [shapeF, h]
    · have h1 := cloneV_shape n v hv hn'.1
      have h2 := cloneF_shape (deepCloneH n v).1 rest hn'.2
      simp only [cloneFields, hv]
      simp [shapeF, h1, h2]
theorem cloneE_shape : ∀ (n : Nat) (es : HElems), noNullE es = true →
    shapeE (cloneElems n es).2 = shapeE es := fun n es =>
  match es with
  | .nil => fun _ => by simp [cloneElems]
  | .cons v rest => fun hn => by
    have hn' : noNull v = true ∧ noNullE rest = true := by
      simpa [noNullE, Bool.and_eq_true] using hn
    rcases hv : isJsObject v with _ | _
    · have h := cloneE_shape n rest hn'.2
      simp only [cloneElems, hv]
      simp [shapeE, h]
    · have h1 := cloneV_shape n v hv hn'.1
      have h2 := cloneE_shape (deepCloneH n v).1 rest hn'.2
      simp only [cloneElems, hv]
      simp [shapeE, h1, h2]
end

theorem mutIds_of_not_object (v : HVal) (h : isJsObject v = false) : mutIds v = [] := by
  cases v with
  | prim p => simp [mutIds]
  | buf id bytes => simp [isJsObject] at h
  | custom id t fields => simp [isJsObject] at h
  | arr id elems => simp [isJsObject] at h
  | obj id fields => simp [isJsObject] at h

theorem mutIdsF_of_allPrim : ∀ (fs : HFields), fieldsAllPrim fs = true →
    mutIdsF fs = [] := fun fs =>
  match fs with
  | .nil => fun _ => by simp [mutIdsF]
  | .cons _ v rest => fun h => by
    have h' : isJsObject v = false ∧ fieldsAllPrim rest = true := by
      simpa [fieldsAllPrim, Bool.and_eq_true] using h
    simp [mutIdsF, mutIds_of_not_object v h'.1, mutIdsF_of_allPrim rest h'.2]

mutual
theorem cloneV_fresh : ∀ (n : Nat) (v : HVal), customOk v = true →
    ∀ i ∈ mutIds (deepCloneH n v).2, n ≤ i := fun n v =>
  match v with
  | .buf _ _ => fun _ i hi => by
    simp [deepCloneH, mutIds] at hi
    omega
  | .custom _ _ fields => fun hc i hi => by
    have hf : mutIdsF fields = [] :=
      mutIdsF_of_allPrim fields (by simpa [customOk] using hc)
    simp [deepCloneH, mutIds, hf] at hi
    omega
  | .arr _ elems => fun hc i hi => by
    simp only [deepCloneH, mutIds, List.mem_cons] at hi
    rcases hi with rfl | hi'
    · exact le_refl i
    · have h := cloneE_fresh (n + 1) elems (by simpa [customOk] using hc) i hi'
      omega
  | .obj _ fields => fun hc i hi => by
    simp only [deepCloneH, mutIds, List.mem_cons] at hi
    rcases hi with rfl | hi'
    · exact le_refl i
    · have h := cloneF_fresh (n + 1) fields (by simpa [customOk] using hc) i hi'
      omega
  | .prim _ => fun _ i hi => by
    simp [deepCloneH, mutIds, mutIdsF] at hi
    omega
theorem cloneF_fresh : ∀ (n : Nat) (fs : HFields), customOkF fs = true →
    ∀ i ∈ mutIdsF (cloneFields n fs).2, n ≤ i := fun n fs =>
  match fs with
  | .nil => fun _ i hi => by simp [cloneFields, mutIdsF] at hi
  | .cons k v rest => fun hc i hi => by
    have hc' : customOk v = true ∧ customOkF rest = true := by
      simpa [customOkF, Bool.and_eq_true] using hc
    rcases hv : isJsObject v with _ | _
    · simp only [cloneFields, hv, if_neg, Bool.false_eq_true, not_false_iff,
        mutIdsF, mutIds_of_not_object v hv, List.nil_append] at hi
      exact cloneF_fresh n rest hc'.2 i hi
    · simp only [cloneFields, hv, if_true, mutIdsF, List.mem_append] at hi
      rcases hi with h1 | h2
      · exact cloneV_fresh n v hc'.1 i h1
      · have hs := cloneV_supply n v
        have h := cloneF_fresh (deepCloneH n v).1 rest hc'.2 i h2
        omega
theorem cloneE_fresh : ∀ (n : Nat) (es : HElems), customOkE es = true →
    ∀ i ∈ mutIdsE (cloneElems n es).2, n ≤ i := fun n es =>
  match es with
  | .nil => fun _ i hi => by simp [cloneElems, mutIdsE] at hi
  | .cons v rest => fun hc i hi => by
    have hc' : customOk v = true ∧ customOkE rest = true := by
      simpa [customOkE, Bool.and_eq_true] using hc
    rcases hv : isJsObject v with _ | _
    · simp only [cloneElems, hv, if_neg, Bool.false_eq_true, not_false_iff,
        mutIdsE, mutIds_of_not_object v hv, List.nil_append] at hi
      exact cloneE_fresh n rest hc'.2 i hi
    · simp only [cloneElems, hv, if_true, mutIdsE, List.mem_append] at hi
      rcases hi with h1 | h2
      · exact cloneV_fresh n v hc'.1 i h1
      · have hs := cloneV_supply n v
        have h := cloneE_fresh (deepCloneH n v).1 rest hc'.2 i h2
        omega
end

theorem cloneFields_get_null : ∀ (fs : HFields) (n i : Nat) (k : String),
    fieldsGet fs i = some (k, .prim .null) →
    ∃ m, fieldsGet (cloneFields n fs).2 i = some (k, HVal.obj m .nil) := fun fs =>
  match fs with
  | .nil => fun n i k h => by simp [fieldsGet] at h
  | .cons k0 v rest => fun n i k h => by
    cases i with
    | zero =>
      have hk : k0 = k ∧ v = .prim .null := by
        simpa [fieldsGet, Prod.ext_iff] using h
      obtain ⟨rfl, rfl⟩ := hk
      exact ⟨n, by simp [cloneFields, isJsObject, deepCloneH, fieldsGet]⟩
    | succ j =>
      simp only [fieldsGet] at h
      rcases hv : isJsObject v with _ | _
      · obtain ⟨m, hm⟩ := cloneFields_get_null rest n j k h
        exact ⟨m, by simp [cloneFields, hv, fieldsGet, hm]⟩
      · obtain ⟨m, hm⟩ := cloneFields_get_null rest (deepCloneH n v).1 j k h
        exact ⟨m, by simp [cloneFields, hv, fieldsGet, hm]⟩

theorem shapeF_get : ∀ (fs : HFields) (i : Nat),
    fieldsGet (shapeF fs) i = (fieldsGet fs i).map (fun p => (p.1, shape p.2)) := fun fs =>
  match fs with
  | .nil => fun i => by simp [shapeF, fieldsGet]
  | .cons k v rest => fun i => by
    cases i with
    | zero => simp [shapeF, fieldsGet]
    | succ j => simpa [shapeF, fieldsGet] using shapeF_get rest j

/-- C10 (amended): `deepClone` returns a structurally equal copy for
null-free inputs, and shares no mutable substructure provided every codec
custom-type node has only primitive fields (the custom-type branch is a
shallow `Object.assign` copy, so object-valued fields of custom types stay
shared); for any input object with a `null` field, the clone holds a fresh
empty plain object there instead of `null`, so it is not structurally equal
to the input. -/
theorem C10_deepClone_isolation (v : HVal) (n : Nat) (hobj : isJsObject v = true) :
    (noNull v = true → shape (deepCloneH n v).2 = shape v) ∧
    (customOk v = true → (∀ i ∈ mutIds v, i < n) →
      ∀ i ∈ mutIds (deepCloneH n v).2, i ∉ mutIds v) ∧
    (∀ id fs i k, v = HVal.obj id fs → fieldsGet fs i = some (k, .prim .null) →
      (∃ m, fieldsGet (cloneFields (n + 1) fs).2 i = some (k, HVal.obj m .nil)) ∧
      shape (deepCloneH n v).2 ≠ shape v) := by
  refine ⟨fun hn => cloneV_shape n v hobj hn, fun hc hb i hi hmem => ?_, ?_⟩
  · have h1 := cloneV_fresh n v hc i hi
    have h2 := hb i hmem
    omega
  · rintro id fs i k rfl hget
    refine ⟨cloneFields_get_null fs (n + 1) i k hget, fun hsh => ?_⟩
    have hfs : shapeF (cloneFields (n + 1) fs).2 = shapeF fs := by
      have h : HVal.obj 0 (shapeF (cloneFields (n + 1) fs).2) = HVal.obj 0 (shapeF fs) := by
        simpa [deepCloneH, shape] using hsh
      injection h with h1 h2
    obtain ⟨m, hm⟩ := cloneFields_get_null fs (n + 1) i k hget
    have e1 : fieldsGet (shapeF (cloneFields (n + 1) fs).2) i
        = some (k, HVal.obj 0 .nil) := by
      rw [shapeF_get, hm]
      simp [shape, shapeF]
    have e2 : fieldsGet (shapeF fs) i = some (k, .prim .null) := by
      rw [shapeF_get, hget]
      simp [shape]
    rw [hfs, e2] at e1
    simp at e1

/-- A null-free object holding a buffer and a number. -/
def vGood : HVal :=
  .obj 1 (.cons "a" (.buf 2 [3]) (.cons "b" (.prim (.num 5)) .nil))

/-- An object whose only field is `null`. -/
def vNull : HVal :=
  .obj 0 (.cons "x" (.prim .null) .nil)

/-- Witness for C10's amended claim at concrete inputs. -/
theorem C10_witness :
    shape (deepCloneH 3 vGood).2 = shape vGood ∧
    (∀ i ∈ mutIds (deepCloneH 3 vGood).2, i ∉ mutIds vGood) ∧
    ((∃ m, fieldsGet (cloneFields 1 (.cons "x" (.prim .null) .nil)).2 0
        = some ("x", HVal.obj m .nil)) ∧
      shape (deepCloneH 0 vNull).2 ≠ shape vNull) := by
  refine ⟨?_, ?_, ?_⟩
  · exact (C10_deepClone_isolation vGood 3 rfl).1 rfl
  · exact (C10_deepClone_isolation vGood 3 rfl).2.1 rfl (by decide)
  · exact (C10_deepClone_isolation vNull 0 rfl).2.2 0
      (.cons "x" (.prim .null) .nil) 0 "x" rfl rfl

/-- A codec custom-type instance holding an (empty) array field. -/
def vShared : HVal :=
  .custom 0 7 (.cons "a" (.arr 1 .nil) .nil)

/-- Counterexample to C10 as stated: `vShared` is built only from custom
types, arrays and (no) primitive fields and contains no `null`, yet its
clone shares a mutable node (the array, id 1) with the input — the
custom-type branch copies fields shallowly. -/
theorem C10_counterexample :
    noNull vShared = true ∧
    1 ∈ mutIds (deepCloneH 2 vShared).2 ∧
    1 ∈ mutIds vShared := by
  refine ⟨rfl, ?_, ?_⟩ <;> decide

/-- C1: for every set of registered hooks and every opcode, the hook sequence
produced for a `handle` invocation is the stable merge of the WILDCARD
ordering and the opcode ordering by ascending group order, WILDCARD first on
ties, and within a group the hooks appear in registration order. -/
theorem C1_dispatch_order_is_stable_merge {α : Type} :
    (∀ (gs cs : List (HookGroup α)), iterateHooks gs cs = specStableMerge gs cs) ∧
    (∀ (regs : List (Int × α)) (o : Int),
      groupsHooks (buildOrdering regs) o = (regs.filter (fun r => r.1 = o)).map Prod.snd) :=
  ⟨iterateHooks_eq_specStableMerge, buildOrdering_groupsHooks⟩

end TeraDispatch
